import Mathlib

set_option maxRecDepth 10000

/-!
Shallow embedding of `process_markdown.py` (the markdown-to-JSON database
processor of aiisdoinggreat.com) and verification of the frozen claims.

Strings are modelled as Lean `String`/`List Char`; the wall clock is a
`Timestamp` parameter; SHA-256 is an abstract parameter `hash : String → String`
(the claims are structural in the digest); the filesystem is a pair of oracles
(`fileExists`, `copyOk`); paths are component lists.  Python's `re.sub` calls are
embedded as character-level scanners that reproduce the exact leftmost,
non-overlapping match semantics of the three concrete patterns in the source,
including greedy matching with backtracking and the lookaround classes of the
plain-URL pass (ASCII fragment of `\w` and `\s`).
-/

namespace ProcessMarkdown

/-- Wall-clock timestamp at date granularity (`datetime.now()`); the pipeline
only ever inspects the date portion (for the slug stamp) and compares
timestamps for the newest-first sort. -/
structure Timestamp where
  year : Nat
  month : Nat
  day : Nat
deriving DecidableEq

/-- Sort key making `Timestamp` compare the way equal-width ISO-8601 date
strings compare lexicographically (`posts.sort(key=lambda x: x['created_at'])`). -/
def tsKey (t : Timestamp) : Nat :=
  t.year * 10000 + t.month * 100 + t.day

/-- The in-memory catalog `self.existing_posts`: a Python dict modelled as an
insertion-ordered association list. -/
abbrev Catalog (α : Type) := List (String × α)

/-- Dict lookup (`d[k]` / `k in d`). -/
def dictGet {α : Type} (cat : Catalog α) (k : String) : Option α :=
  match cat with
  | [] => none
  | kv :: rest => if kv.1 = k then some kv.2 else dictGet rest k

/-- Dict assignment `d[k] = v`: replaces in place (keeping insertion order) or
appends at the end, exactly like a Python dict. -/
def dictInsert {α : Type} (cat : Catalog α) (k : String) (v : α) : Catalog α :=
  match cat with
  | [] => [(k, v)]
  | kv :: rest => if kv.1 = k then (k, v) :: rest else kv :: dictInsert rest k v

/-- The keys of the catalog are pairwise distinct (true of any Python dict). -/
def nodupKeys {α : Type} (cat : Catalog α) : Prop :=
  (cat.map Prod.fst).Nodup

instance {α : Type} (cat : Catalog α) : Decidable (nodupKeys cat) := by
  unfold nodupKeys; infer_instance

/-- Every stored record's `id` field equals its key (the pipeline only ever
stores `post` under `post['id']`). -/
def keysMatch {α : Type} (idOf : α → String) (cat : Catalog α) : Prop :=
  ∀ kv ∈ cat, idOf kv.2 = kv.1

instance {α : Type} (idOf : α → String) (cat : Catalog α) :
    Decidable (keysMatch idOf cat) := by
  unfold keysMatch; infer_instance

/-! ## Embedding of `create_slug_from_title` (lines 53-75) -/

/-- One character of `title.lower().replace(' ', '-').replace('_', '-')`.
(Lowercasing is modelled on the ASCII range, which is all the subsequent
filter can keep anyway.) -/
def slugMapChar (c : Char) : Char :=
  let l := c.toLower
  if l = ' ' ∨ l = '_' then '-' else l

/-- The character class kept by `re.sub(r'[^a-z0-9-]', '', slug)`. -/
def slugChar (c : Char) : Bool :=
  ('a' ≤ c && c ≤ 'z') || ('0' ≤ c && c ≤ '9') || c = '-'

/-- Source `re.sub(r'-+', '-', slug)`: collapse each maximal run of dashes to one. -/
def collapseDashes : List Char → List Char
  | [] => []
  | c :: rest =>
      if c = '-' ∧ rest.head? = some '-' then collapseDashes rest
      else c :: collapseDashes rest

/-- Source `slug.strip('-')`. -/
def trimDashes (l : List Char) : List Char :=
  ((l.dropWhile (fun c => c = '-')).reverse.dropWhile (fun c => c = '-')).reverse

/-- The cleaned slug before the date stamp is appended. -/
def slugCore (title : String) : List Char :=
  trimDashes (collapseDashes ((title.data.map slugMapChar).filter (fun c => slugChar c)))

/-- Two zero-padded decimal digits (`%m`, `%d`). -/
def pad2 (n : Nat) : List Char :=
  [Nat.digitChar (n / 10 % 10), Nat.digitChar (n % 10)]

/-- Four zero-padded decimal digits (`%Y`; Python timestamps have year ≤ 9999). -/
def pad4 (n : Nat) : List Char :=
  [Nat.digitChar (n / 1000 % 10), Nat.digitChar (n / 100 % 10),
   Nat.digitChar (n / 10 % 10), Nat.digitChar (n % 10)]

/-- Source `date_obj.strftime('%Y%m%d')`.  The `except` branch of the source formats
`datetime.now()` the same way, so either branch produces this shape. -/
def dateStamp (t : Timestamp) : List Char :=
  pad4 t.year ++ pad2 t.month ++ pad2 t.day

/-- Source `create_slug_from_title`: cleaned title, a dash, then the 8-digit stamp. -/
def create_slug_from_title (title : String) (created_at : Timestamp) : String :=
  String.mk (slugCore title ++ '-' :: dateStamp created_at)

/-- The property of having no two consecutive dashes, as the absence of the infix `--`. -/
def noDoubleDash (l : List Char) : Prop :=
  ¬ (['-', '-'] <:+: l)

/-! ## Embedding of `process_links` (lines 122-158)

The three `re.sub` passes are embedded as fuel-indexed scanners over
`List Char`; the fuel is the input length, and every step consumes at least
one input character, so the fuel never runs out on the defining call.  A
replacement is emitted verbatim and scanning resumes at the end of the match
in the *input*, exactly as `re.sub` does. -/

/-- The anchor markup emitted by all three replacers:
`<a href="{url}" target="_blank" rel="noopener noreferrer">{text}</a>`. -/
def anchorChars (url text : List Char) : List Char :=
  "<a href=\"".data ++ url ++ "\" target=\"_blank\" rel=\"noopener noreferrer\">".data
    ++ text ++ "</a>".data

/-- Match `https?://` at the head of the input (longest alternative first, as
the regex engine's greedy `s?` does); returns the scheme and the remainder. -/
def schemeSplit : List Char → Option (List Char × List Char)
  | 'h' :: 't' :: 't' :: 'p' :: 's' :: ':' :: '/' :: '/' :: rest =>
      some ("https://".data, rest)
  | 'h' :: 't' :: 't' :: 'p' :: ':' :: '/' :: '/' :: rest =>
      some ("http://".data, rest)
  | _ => none

/-- Split at the first occurrence of `stop`, returning the (possibly empty)
run before it and the remainder after it; `none` if `stop` never occurs.
This is exactly how a greedy `[^stop]+` followed by `stop` matches. -/
def splitAtChar (stop : Char) : List Char → Option (List Char × List Char)
  | [] => none
  | c :: rest =>
      if c = stop then some ([], rest)
      else (splitAtChar stop rest).map (fun p => (c :: p.1, p.2))

/-- Pass 1 matcher `\[(https?://[^\]]+)\]`, applied just after a `[`:
the group (scheme included) and the remainder after the closing `]`. -/
def matchBareUrl (l : List Char) : Option (List Char × List Char) :=
  (schemeSplit l).bind fun sr =>
    (splitAtChar ']' sr.2).bind fun br =>
      if br.1 = [] then none else some (sr.1 ++ br.1, br.2)

def pass1F : Nat → List Char → List Char
  | 0, l => l
  | _ + 1, [] => []
  | fuel + 1, c :: rest =>
      if c = '[' then
        match matchBareUrl rest with
        | some (url, rest') => anchorChars url url ++ pass1F fuel rest'
        | none => '[' :: pass1F fuel rest
      else c :: pass1F fuel rest

/-- First pass: `re.sub(r'\[(https?://[^\]]+)\]', bare_url_replacer, content)`. -/
def pass1 (l : List Char) : List Char := pass1F l.length l

/-- Pass 2 matcher `\[([^\]]+)\]\(([^)]+)\)` applied just after a `[`:
link text, url and the remainder after the closing `)`. -/
def matchMdLink (l : List Char) : Option (List Char × List Char × List Char) :=
  match splitAtChar ']' l with
  | none => none
  | some (text, rest1) =>
      if text = [] then none
      else
        match rest1 with
        | '(' :: rest2 =>
            match splitAtChar ')' rest2 with
            | none => none
            | some (url, rest3) => if url = [] then none else some (text, url, rest3)
        | _ => none

/-- Source `url.startswith(('http://', 'https://'))`. -/
def startsWithHttp (l : List Char) : Bool := (schemeSplit l).isSome

def pass2F : Nat → List Char → List Char
  | 0, l => l
  | _ + 1, [] => []
  | fuel + 1, c :: rest =>
      if c = '[' then
        match matchMdLink rest with
        | some (text, url, rest') =>
            (if startsWithHttp url then anchorChars url text
             else '[' :: text ++ ']' :: '(' :: url ++ [')']) ++ pass2F fuel rest'
        | none => '[' :: pass2F fuel rest
      else c :: pass2F fuel rest

/-- Second pass: `re.sub(r'\[([^\]]+)\]\(([^)]+)\)', link_replacer, content)`;
internal links are replaced by `match.group(0)` (kept verbatim, region not
rescanned). -/
def pass2 (l : List Char) : List Char := pass2F l.length l

/-- The ASCII fragment of `\w`. -/
def wordChar (c : Char) : Bool :=
  ('a' ≤ c && c ≤ 'z') || ('A' ≤ c && c ≤ 'Z') || ('0' ≤ c && c ≤ '9') || c = '_'

/-- The ASCII fragment of `\s`. -/
def spaceChar (c : Char) : Bool :=
  c = ' ' || c = '\t' || c = '\n' || c = '\r' || c = '\x0b' || c = '\x0c'

/-- The character class `[^\s<>\[\]"]` of the plain-URL pass. -/
def urlChar (c : Char) : Bool :=
  !(spaceChar c) && !(c = '<') && !(c = '>') && !(c = '[') && !(c = ']') && !(c = '"')

/-- The negative lookbehind class `(?<![\[<"\w])`.  Note `>` is NOT in it. -/
def blockedBehind (c : Char) : Bool :=
  c = '[' || c = '<' || c = '"' || wordChar c

/-- The negative lookahead class `(?![\]>"\w])`. -/
def blockedAfter (c : Char) : Bool :=
  c = ']' || c = '>' || c = '"' || wordChar c

/-- The negative lookahead succeeds at end of input or at a non-blocked char. -/
def lookaheadOK : List Char → Bool
  | [] => true
  | c :: _ => !(blockedAfter c)

/-- Greedy-with-backtracking length of `[^\s<>\[\]"]+`: try the full run `j`,
then shorter, until the lookahead succeeds; `none` if no length ≥ 1 works. -/
def bestLen (run rest : List Char) : Nat → Option Nat
  | 0 => none
  | j + 1 =>
      if lookaheadOK (run.drop (j + 1) ++ rest) then some (j + 1)
      else bestLen run rest j

/-- Pass 3 matcher `(?<![\[<"\w])(https?://[^\s<>\[\]"]+)(?![\]>"\w])` tried at
one position, given the previous input character (for the lookbehind). -/
def matchPlainUrl (prev : Option Char) (l : List Char) : Option (List Char × List Char) :=
  if (prev.map blockedBehind).getD false then none
  else
    match schemeSplit l with
    | none => none
    | some (scheme, rest1) =>
        let run := rest1.takeWhile urlChar
        let tail1 := rest1.drop run.length
        match bestLen run tail1 run.length with
        | none => none
        | some j => some (scheme ++ run.take j, run.drop j ++ tail1)

def pass3F : Nat → Option Char → List Char → List Char
  | 0, _, l => l
  | _ + 1, _, [] => []
  | fuel + 1, prev, c :: rest =>
      match matchPlainUrl prev (c :: rest) with
      | some (url, rest') => anchorChars url url ++ pass3F fuel url.getLast? rest'
      | none => c :: pass3F fuel (some c) rest

/-- Third pass: `re.sub(plain_url_pattern, plain_url_replacer, content)`.
The lookbehind inspects the *input*, so after a match the previous character
is the last character of the matched URL. -/
def pass3 (l : List Char) : List Char := pass3F l.length none l

/-- Source `process_links` on character lists: the three passes in source order. -/
def process_links_chars (l : List Char) : List Char :=
  pass3 (pass2 (pass1 l))

/-- Source `MarkdownProcessor.process_links`. -/
def process_links (s : String) : String :=
  String.mk (process_links_chars s.data)

/-! ## Paths and the filesystem oracle -/

/-- A filesystem path as its component list (`pathlib.Path`).  Absolute-path
markers are not modelled; every path the pipeline builds is joined from the
configured roots. -/
abbrev FsPath := List String

/-- Source `Path.name`: the final component. -/
def fileName (p : FsPath) : String := p.getLast?.getD ""

/-- Index of the last `.` in a component, if any. -/
def lastDotIdx (l : List Char) : Option Nat :=
  ((l.enum.filter (fun p => p.2 = '.')).map (fun p => p.1)).getLast?

/-- Source `Path.stem`: the final component minus its last suffix; names whose only
dot is leading or trailing have an empty suffix, as in `pathlib`. -/
def stemChars (l : List Char) : List Char :=
  match lastDotIdx l with
  | none => l
  | some i => if 0 < i ∧ i < l.length - 1 then l.take i else l

/-- Source `Path.stem` on a component string. -/
def stemStr (s : String) : String := String.mk (stemChars s.data)

def splitSlashAux (cur : List Char) : List Char → List String
  | [] => [String.mk cur.reverse]
  | c :: rest =>
      if c = '/' then String.mk cur.reverse :: splitSlashAux [] rest
      else splitSlashAux (c :: cur) rest

/-- Split a relative path string on `/`. -/
def splitSlash (l : List Char) : List String := splitSlashAux [] l

/-- Source `dir / rel` for a relative path string: `pathlib` drops empty and `.`
components when joining. -/
def joinRel (dir : FsPath) (rel : List Char) : FsPath :=
  dir ++ (splitSlash rel).filter (fun s => !(s = "" || s = "."))

/-- The filesystem, as the two oracles the transformer consults: existence of a
source image, and success of `shutil.copy2` (a failing copy raises, which
`process_images` catches in its inner `try`). -/
structure FS where
  fileExists : FsPath → Bool
  copyOk : FsPath → FsPath → Bool

/-! ## Embedding of `process_images` (lines 82-120) -/

/-- Matcher applied after `![`: alt text up to `]`, then `(`, then a
non-empty path up to `)`. -/
def matchImageTail (l : List Char) : Option (List Char × List Char × List Char) :=
  match splitAtChar ']' l with
  | none => none
  | some (alt, rest1) =>
      match rest1 with
      | '(' :: rest2 =>
          match splitAtChar ')' rest2 with
          | none => none
          | some (ipath, rest3) => if ipath = [] then none else some (alt, ipath, rest3)
      | _ => none

/-- All non-overlapping matches of `re.findall(r'!\[([^\]]*)\]\(([^)]+)\)', content)`
in scan order: (alt text, image path) pairs.  Alt text may be empty (`*`),
the path must be non-empty (`+`). -/
def findImageEmbeds : Nat → List Char → List (List Char × List Char)
  | 0, _ => []
  | _ + 1, [] => []
  | fuel + 1, c :: rest =>
      match c, rest with
      | '!', '[' :: rest2 =>
          (match matchImageTail rest2 with
           | some (alt, ipath, rest3) => (alt, ipath) :: findImageEmbeds fuel rest3
           | none => findImageEmbeds fuel rest)
      | _, _ => findImageEmbeds fuel rest

/-- Source `image_path[2:]` when the path starts with `./`. -/
def stripDotSlash : List Char → List Char
  | '.' :: '/' :: rest => rest
  | l => l

/-- Does `pat` occur at the head of `l`? -/
def startsWithChars : List Char → List Char → Bool
  | [], _ => true
  | _ :: _, [] => false
  | p :: ps, c :: cs => p = c && startsWithChars ps cs

def replaceAllF : Nat → List Char → List Char → List Char → List Char
  | 0, l, _, _ => l
  | _ + 1, [], _, _ => []
  | fuel + 1, c :: rest, pat, rep =>
      if startsWithChars pat (c :: rest) then
        rep ++ replaceAllF fuel ((c :: rest).drop pat.length) pat rep
      else c :: replaceAllF fuel rest pat rep

/-- Python `str.replace(pat, rep)`: replace every non-overlapping occurrence,
left to right. -/
def replaceAll (l pat rep : List Char) : List Char :=
  replaceAllF l.length l pat rep

/-- The literal markdown image embed `![alt](path)`. -/
def imageEmbed (alt ipath : List Char) : List Char :=
  '!' :: '[' :: alt ++ ']' :: '(' :: ipath ++ [')']

/-- Processing of one `findall` match inside the loop of `process_images`:
state is (current content, copies performed so far). -/
def processOneImage (fs : FS) (dbDir : FsPath) (srcPath : FsPath)
    (state : List Char × List (FsPath × FsPath)) (m : List Char × List Char) :
    List Char × List (FsPath × FsPath) :=
  let alt := m.1
  let ipath := stripDotSlash m.2
  let full := joinRel srcPath.dropLast ipath
  if fs.fileExists full then
    let imageFilename := stemStr (fileName srcPath) ++ "_" ++ fileName full
    let target := dbDir ++ ["assets", "images", "posts", imageFilename]
    if fs.copyOk full target then
      (replaceAll state.1 (imageEmbed alt ipath)
         (imageEmbed alt ("db/assets/images/posts/".data ++ imageFilename.data)),
       state.2 ++ [(full, target)])
    else state
  else state

/-- Source `MarkdownProcessor.process_images`: returns the rewritten content and the
list of (source, target) copies actually performed.  NOTE: the source strips a
leading `./` from `image_path` *before* building the replacement's search
string, so an embed written with `./` is never found by `str.replace`. -/
def process_images (fs : FS) (dbDir : FsPath) (content : List Char)
    (srcPath : FsPath) : List Char × List (FsPath × FsPath) :=
  (findImageEmbeds content.length content).foldl
    (processOneImage fs dbDir srcPath) (content, [])

/-! ## Records and the embedding of `process_markdown_file` (lines 160-206) -/

structure Post where
  id : String
  title : String
  excerpt : String
  content : String
  filename : String
  slug : String
  created_at : Timestamp
  updated_at : Timestamp
deriving DecidableEq

/-- Source `extract_title_from_filename` (line 49-51): removes every occurrence of
`.md`, scanning left to right (`str.replace('.md', '')`). -/
def removeDotMd : List Char → List Char
  | '.' :: 'm' :: 'd' :: rest => removeDotMd rest
  | c :: rest => c :: removeDotMd rest
  | [] => []

def extract_title_from_filename (filename : String) : String :=
  String.mk (removeDotMd filename.data)

/-- Source `extract_excerpt` (lines 77-80): returns the full content, ignoring
`max_length`. -/
def extract_excerpt (content : String) (_maxLength : Nat) : String :=
  content

/-- A source document: its path and the outcome of reading it (`none` models
an `open`/decode exception). -/
structure SrcFile where
  path : FsPath
  readResult : Option String
deriving DecidableEq

/-- The record assembled at lines 190-199 for a new (non-duplicate) document. -/
def buildPost (hash : String → String) (fs : FS) (dbDir : FsPath)
    (content : String) (f : SrcFile) (now : Timestamp) : Post :=
  let title := extract_title_from_filename (fileName f.path)
  let processed_content :=
    String.mk (process_links_chars (process_images fs dbDir content.data f.path).1)
  { id := hash content
    title := title
    excerpt := extract_excerpt processed_content 200
    content := processed_content
    filename := fileName f.path
    slug := create_slug_from_title title now
    created_at := now
    updated_at := now }

/-- Source `MarkdownProcessor.process_markdown_file`: `none` when the read raises
(outer `except`) or the content hash is already in the catalog (dedup skip). -/
def process_markdown_file (hash : String → String) (fs : FS) (dbDir : FsPath)
    (existing_posts : Catalog Post) (now : Timestamp) (f : SrcFile) : Option Post :=
  match f.readResult with
  | none => none
  | some content =>
      if (dictGet existing_posts (hash content)).isSome then none
      else some (buildPost hash fs dbDir content f now)

/-- One iteration of the loop at lines 328-332 of `run`. -/
def runStep (hash : String → String) (fs : FS) (dbDir : FsPath) (now : Timestamp)
    (cat : Catalog Post) (f : SrcFile) : Catalog Post :=
  match process_markdown_file hash fs dbDir cat now f with
  | some p => dictInsert cat p.id p
  | none => cat

/-- The per-file loop of `run`: fold `runStep` over the scanned files. -/
def runFiles (hash : String → String) (fs : FS) (dbDir : FsPath) (now : Timestamp)
    (cat : Catalog Post) (files : List SrcFile) : Catalog Post :=
  files.foldl (fun c f => runStep hash fs dbDir now c f) cat

/-! ## Catalog writer (lines 215-310) -/

/-- The payload of `posts.db` written by `save_database`. -/
structure DbFileData where
  posts : List Post
  total_posts : Nat
  last_updated : Timestamp
deriving DecidableEq

/-- Source `MarkdownProcessor.save_database`. -/
def save_database (cat : Catalog Post) (now : Timestamp) : DbFileData :=
  { posts := cat.map (fun kv => kv.2)
    total_posts := cat.length
    last_updated := now }

/-- The payload of one `post_{id}.json` file. -/
structure PostFileData where
  post : Post
  last_updated : Timestamp
deriving DecidableEq

/-- Source `MarkdownProcessor.create_individual_json_files`: the (filename, payload)
pairs regenerated from scratch on every run. -/
def create_individual_json_files (cat : Catalog Post) (now : Timestamp) :
    List (String × PostFileData) :=
  cat.map (fun kv =>
    ("post_" ++ kv.1 ++ ".json", { post := kv.2, last_updated := now }))

/-- The lightweight projection used by the paginated index (content omitted). -/
structure LitePost where
  id : String
  title : String
  excerpt : String
  filename : String
  slug : String
  created_at : Timestamp
deriving DecidableEq

def lighten (p : Post) : LitePost :=
  { id := p.id, title := p.title, excerpt := p.excerpt,
    filename := p.filename, slug := p.slug, created_at := p.created_at }

/-- Stable insertion of one element into a descending-sorted list: inserted
before the first strictly-smaller key, after equal keys. -/
def insertDesc {α : Type} (key : α → Nat) (x : α) : List α → List α
  | [] => [x]
  | y :: ys => if key y < key x then x :: y :: ys else y :: insertDesc key x ys

/-- Source `all_posts.sort(key=lambda x: x['created_at'], reverse=True)`: a stable
descending sort (Python's sort is stable, and `reverse=True` keeps equal
elements in original order). -/
def sortDesc {α : Type} (key : α → Nat) : List α → List α
  | [] => []
  | x :: xs => insertDesc key x (sortDesc key xs)

/-- One paginated index page.  `has_next`/`has_prev` and the page links follow
lines 287-298 verbatim (`page = page_num + 1`). -/
structure PageData where
  posts : List LitePost
  page : Nat
  total_pages : Nat
  total_posts : Nat
  posts_per_page : Nat
  has_next : Bool
  has_prev : Bool
  next_page : Option Nat
  prev_page : Option Nat
  last_updated : Timestamp
deriving DecidableEq

/-- Source `MarkdownProcessor.create_paginated_index_files`: the (filename, page)
pairs regenerated on every run.  The slug-backfill branch for legacy records
(line 263) is dead in this model because every `Post` carries a slug, and the
mutation it performs is observationally irrelevant within a run since the
paginated write is the last pipeline step. -/
def create_paginated_index_files (cat : Catalog Post) (now : Timestamp) :
    List (String × PageData) :=
  let all_posts := sortDesc (fun p => tsKey p.created_at) (cat.map (fun kv => kv.2))
  let posts_list := all_posts.map lighten
  let posts_per_page := 10
  let total_posts := posts_list.length
  let total_pages := (total_posts + posts_per_page - 1) / posts_per_page
  (List.range total_pages).map (fun page_num =>
    let start_idx := page_num * posts_per_page
    let end_idx := min (start_idx + posts_per_page) total_posts
    let page_posts := (posts_list.drop start_idx).take (end_idx - start_idx)
    ((if page_num = 0 then "index.json"
      else "index_" ++ toString (page_num + 1) ++ ".json"),
     { posts := page_posts
       page := page_num + 1
       total_pages := total_pages
       total_posts := total_posts
       posts_per_page := posts_per_page
       has_next := decide (page_num + 1 < total_pages)
       has_prev := decide (0 < page_num)
       next_page := if page_num + 1 < total_pages then some (page_num + 2) else none
       prev_page := if 0 < page_num then some page_num else none
       last_updated := now }))

/-- Everything in a page except `last_updated` (for the byte-for-byte-modulo-
timestamp comparisons of the rerun claim). -/
def pageCore (pg : PageData) :
    List LitePost × Nat × Nat × Nat × Nat × Bool × Bool × Option Nat × Option Nat :=
  (pg.posts, pg.page, pg.total_pages, pg.total_posts, pg.posts_per_page,
   pg.has_next, pg.has_prev, pg.next_page, pg.prev_page)

/-! ## Embedding of `load_existing_database` (lines 32-42)

The loader iterates `data.get('posts', [])` and keys each entry by
`post['id']`; a malformed entry (no `'id'`) raises `KeyError` *mid-loop*,
which the handler catches, leaving `self.existing_posts` partially populated.
A raw loaded entry is modelled by whether its `'id'` lookup succeeds. -/

structure JPost where
  idField : Option String
deriving DecidableEq

/-- Outcome of `open` + `json.load` on an existing aggregate file. -/
inductive DbParse
  | unreadable
  | parsed (posts : List JPost)
deriving DecidableEq

/-- The loop over `data.get('posts', [])`, starting from the accumulator
(`self.existing_posts` starts empty); the Bool records whether the exception
handler fired (the error was logged). -/
def loadPosts : List JPost → Catalog JPost → Catalog JPost × Bool
  | [], acc => (acc, false)
  | p :: rest, acc =>
      match p.idField with
      | none => (acc, true)
      | some k => loadPosts rest (dictInsert acc k p)

/-- Source `MarkdownProcessor.load_existing_database`: `none` models an absent file
(the `if self.db_file.exists()` guard). -/
def load_existing_database : Option DbParse → Catalog JPost × Bool
  | none => ([], false)
  | some DbParse.unreadable => ([], true)
  | some (DbParse.parsed ps) => loadPosts ps []

/-! ## Spec-side definition (for the title claim)

The spec says `title` is "the filename with its extension stripped"; stripping
one final extension is `Path.stem`-like removal of the last suffix. -/

/-- Modelled from the spec: "`title` = filename without extension" — remove
the final extension only. -/
def title_extension_stripped (filename : String) : String :=
  String.mk (stemChars filename.data)

/-! ## Concrete fixtures used by counterexamples and witnesses -/

def ts0 : Timestamp := ⟨2024, 1, 15⟩

/-- A filesystem on which nothing exists. -/
def fsNone : FS := ⟨fun _ => false, fun _ _ => false⟩

/-- A filesystem on which every source image exists and every copy succeeds. -/
def fsYes : FS := ⟨fun _ => true, fun _ _ => true⟩

/-- A filesystem on which images exist but `shutil.copy2` always raises. -/
def fsNoCopy : FS := ⟨fun _ => true, fun _ _ => false⟩

/-- A concrete stand-in for SHA-256 in closed evaluations (the claims are
structural in the digest function). -/
def idHash : String → String := fun s => s

def f0 : SrcFile := ⟨["t.md"], some "hi"⟩

def p0 : Post := buildPost idHash fsNone ["db"] "hi" f0 ts0

/-- A document containing one image embed (no `./` prefix). -/
def fImg : SrcFile := ⟨["d", "doc.md"], some "x ![a](i.png) y"⟩

/-- A document whose filename contains `.md` twice. -/
def fAmd : SrcFile := ⟨["a.md.md"], some "body"⟩

def mkTestPost (i : Nat) : Post :=
  { id := toString i, title := "t", excerpt := "e", content := "c",
    filename := "f", slug := "s",
    created_at := ⟨2024, 1, i % 28 + 1⟩, updated_at := ⟨2024, 1, i % 28 + 1⟩ }

/-- A 25-record catalog for the pagination instance of the claim. -/
def cat25 : Catalog Post :=
  (List.range 25).map (fun i => (toString i, mkTestPost i))

/-! # Theorems

## Slug lemmas -/

theorem dash_pair_prefix_cons {c : Char} {l : List Char} :
    (['-', '-'] <+: c :: l) ↔ c = '-' ∧ l.head? = some '-' := by
  rw [List.cons_prefix_cons]
  constructor
  · rintro ⟨rfl, h⟩
    refine ⟨rfl, ?_⟩
    cases l with
    | nil => simp at h
    | cons d l' =>
        rw [List.cons_prefix_cons] at h
        simp [h.1.symm]
  · rintro ⟨rfl, h⟩
    refine ⟨rfl, ?_⟩
    cases l with
    | nil => simp at h
    | cons d l' =>
        simp only [List.head?_cons, Option.some.injEq] at h
        rw [List.cons_prefix_cons]
        simp [h]

theorem noDD_cons {c : Char} {l : List Char} :
    noDoubleDash (c :: l) ↔ ¬(c = '-' ∧ l.head? = some '-') ∧ noDoubleDash l := by
  unfold noDoubleDash
  rw [List.infix_cons_iff, dash_pair_prefix_cons]
  tauto

theorem collapse_head (l : List Char) :
    (collapseDashes l).head? = l.head? := by
  induction l with
  | nil => rfl
  | cons c rest ih =>
      rw [collapseDashes]
      split
      · next h => rw [ih, h.2, List.head?_cons, h.1]
      · rfl

theorem collapse_noDD (l : List Char) : noDoubleDash (collapseDashes l) := by
  induction l with
  | nil => intro h; simpa [collapseDashes] using h.length_le
  | cons c rest ih =>
      rw [collapseDashes]
      split
      · exact ih
      · next h =>
          rw [noDD_cons]
          refine ⟨?_, ih⟩
          rw [collapse_head]
          exact h

theorem collapse_mem {c : Char} {l : List Char} (h : c ∈ collapseDashes l) : c ∈ l := by
  induction l with
  | nil => simp [collapseDashes] at h
  | cons d rest ih =>
      rw [collapseDashes] at h
      split at h
      · exact List.mem_cons_of_mem _ (ih h)
      · rcases List.mem_cons.1 h with rfl | h'
        · exact List.mem_cons_self _ _
        · exact List.mem_cons_of_mem _ (ih h')

theorem noDD_infix {l₁ l₂ : List Char} (h : l₁ <:+: l₂) (h₂ : noDoubleDash l₂) :
    noDoubleDash l₁ :=
  fun hdd => h₂ (hdd.trans h)

theorem trimDashes_prefix_dropWhile (l : List Char) :
    trimDashes l <+: l.dropWhile (fun c => c = '-') := by
  unfold trimDashes
  rw [← List.reverse_suffix]
  simp [List.dropWhile_suffix]

theorem trimDashes_infix_self (l : List Char) : trimDashes l <:+: l :=
  (trimDashes_prefix_dropWhile l).isInfix.trans (List.dropWhile_suffix _).isInfix

theorem head?_dropWhile_not {p : Char → Bool} {l : List Char} {c : Char}
    (h : (l.dropWhile p).head? = some c) : p c = false := by
  induction l with
  | nil => simp at h
  | cons d rest ih =>
      rw [List.dropWhile_cons] at h
      split at h
      · exact ih h
      · next hp =>
          simp only [List.head?_cons, Option.some.injEq] at h
          subst h
          simpa using hp

theorem trimDashes_head {l : List Char} {c : Char}
    (h : (trimDashes l).head? = some c) : c ≠ '-' := by
  have hpre := trimDashes_prefix_dropWhile l
  obtain ⟨t, ht⟩ := hpre
  have : (l.dropWhile (fun c => c = '-')).head? = some c := by
    rw [← ht]
    cases htr : trimDashes l with
    | nil => rw [htr] at h; simp at h
    | cons x xs => rw [htr] at h; simpa using h
  have := head?_dropWhile_not this
  simpa using this

theorem trimDashes_getLast {l : List Char} {c : Char}
    (h : (trimDashes l).getLast? = some c) : c ≠ '-' := by
  have hrev : (trimDashes l).reverse
      = ((l.dropWhile (fun c => c = '-')).reverse).dropWhile (fun c => c = '-') := by
    unfold trimDashes
    simp
  have : ((trimDashes l).reverse).head? = some c := by
    rw [List.head?_reverse]
    exact h
  rw [hrev] at this
  have := head?_dropWhile_not this
  simpa using this

theorem noDD_of_no_dash {l : List Char} (h : ∀ c ∈ l, c ≠ '-') : noDoubleDash l := by
  induction l with
  | nil => intro hdd; simpa using hdd.length_le
  | cons c rest ih =>
      rw [noDD_cons]
      refine ⟨fun hc => h c (List.mem_cons_self _ _) hc.1, ?_⟩
      exact ih fun d hd => h d (List.mem_cons_of_mem _ hd)

theorem noDD_append_sep {a b : List Char} (ha : noDoubleDash a)
    (hlast : a.getLast? ≠ some '-') (hb : ∀ c ∈ b, c ≠ '-') :
    noDoubleDash (a ++ '-' :: b) := by
  induction a with
  | nil =>
      rw [List.nil_append, noDD_cons]
      constructor
      · rintro ⟨-, hh⟩
        cases b with
        | nil => simp at hh
        | cons d b' =>
            simp only [List.head?_cons, Option.some.injEq] at hh
            exact hb d (List.mem_cons_self _ _) hh
      · exact noDD_of_no_dash hb
  | cons x a' ih =>
      rw [List.cons_append, noDD_cons]
      constructor
      · rintro ⟨rfl, hh⟩
        cases a' with
        | nil =>
            simp only [List.nil_append, List.head?_cons, Option.some.injEq] at hh
            simp [hh] at hlast
        | cons y a'' =>
            simp only [List.cons_append, List.head?_cons, Option.some.injEq] at hh
            subst hh
            rw [noDD_cons] at ha
            exact ha.1 ⟨rfl, rfl⟩
      · cases a' with
        | nil =>
            rw [List.nil_append, noDD_cons]
            constructor
            · rintro ⟨-, hh⟩
              cases b with
              | nil => simp at hh
              | cons d b' =>
                  simp only [List.head?_cons, Option.some.injEq] at hh
                  exact hb d (List.mem_cons_self _ _) hh
            · exact noDD_of_no_dash hb
        | cons y a'' =>
            apply ih
            · rw [noDD_cons] at ha; exact ha.2
            · rwa [List.getLast?_cons_cons] at hlast

theorem digitChar_props {n : Nat} (h : n < 10) :
    (Nat.digitChar n).isDigit = true ∧ slugChar (Nat.digitChar n) = true ∧
      Nat.digitChar n ≠ '-' := by
  interval_cases n <;> exact ⟨by decide, by decide, by decide⟩

theorem dateStamp_mem {t : Timestamp} {c : Char} (h : c ∈ dateStamp t) :
    c.isDigit = true ∧ slugChar c = true ∧ c ≠ '-' := by
  have h10 : ∀ m : Nat, m % 10 < 10 := fun m => Nat.mod_lt _ (by norm_num)
  simp only [dateStamp, pad4, pad2, List.mem_append, List.mem_cons,
    List.not_mem_nil, or_false, or_assoc] at h
  rcases h with rfl | rfl | rfl | rfl | rfl | rfl | rfl | rfl <;>
    exact digitChar_props (h10 _)

theorem dateStamp_length (t : Timestamp) : (dateStamp t).length = 8 := rfl

theorem slugCore_mem {title : String} {c : Char} (h : c ∈ slugCore title) :
    slugChar c = true := by
  unfold slugCore at h
  have h1 := (trimDashes_infix_self _).subset h
  have h2 := collapse_mem h1
  exact (List.mem_filter.1 h2).2

theorem slugCore_noDD (title : String) : noDoubleDash (slugCore title) :=
  noDD_infix (trimDashes_infix_self _) (collapse_noDD _)

theorem slug_data (title : String) (ts : Timestamp) :
    (create_slug_from_title title ts).data = slugCore title ++ '-' :: dateStamp ts := rfl

/-- C4: for every title string and every timestamp, the slug produced by
`create_slug_from_title` is non-empty, contains only characters from
`[a-z0-9-]`, has no two consecutive dashes, its portion before the appended
date suffix has no leading or trailing dash, and it ends with an 8-digit
date stamp. -/
theorem C4_slug_shape (title : String) (ts : Timestamp) :
    create_slug_from_title title ts ≠ "" ∧
    (∀ c ∈ (create_slug_from_title title ts).data, slugChar c = true) ∧
    noDoubleDash (create_slug_from_title title ts).data ∧
    (∀ c, (slugCore title).head? = some c → c ≠ '-') ∧
    (∀ c, (slugCore title).getLast? = some c → c ≠ '-') ∧
    dateStamp ts <:+ (create_slug_from_title title ts).data ∧
    (dateStamp ts).length = 8 ∧
    (∀ c ∈ dateStamp ts, c.isDigit = true) := by
  refine ⟨?_, ?_, ?_, ?_, ?_, ?_, rfl, ?_⟩
  · intro h
    have : (create_slug_from_title title ts).data = ([] : List Char) := by
      rw [h]
    rw [slug_data] at this
    simp at this
  · intro c hc
    rw [slug_data] at hc
    rcases List.mem_append.1 hc with h | h
    · exact slugCore_mem h
    · rcases List.mem_cons.1 h with rfl | h'
      · decide
      · exact (dateStamp_mem h').2.1
  · rw [slug_data]
    refine noDD_append_sep (slugCore_noDD title) ?_ ?_
    · intro h
      exact trimDashes_getLast h rfl
    · exact fun c hc => (dateStamp_mem hc).2.2
  · exact fun c h => trimDashes_head h
  · exact fun c h => trimDashes_getLast h
  · refine ⟨slugCore title ++ ['-'], ?_⟩
    rw [slug_data, List.append_assoc]
    rfl
  · exact fun c hc => (dateStamp_mem hc).1

theorem C4_slug_shape_witness :
    create_slug_from_title "Hello, World!" ts0 ≠ "" ∧
    noDoubleDash (create_slug_from_title "Hello, World!" ts0).data :=
  ⟨(C4_slug_shape "Hello, World!" ts0).1, (C4_slug_shape "Hello, World!" ts0).2.2.1⟩

/-! ## Catalog dictionary lemmas -/

theorem dictGet_insert_self {α : Type} (cat : Catalog α) (k : String) (v : α) :
    dictGet (dictInsert cat k v) k = some v := by
  induction cat with
  | nil => simp [dictInsert, dictGet]
  | cons kv rest ih =>
      rw [dictInsert]
      split
      · simp [dictGet]
      · next h => rw [dictGet, if_neg h]; exact ih

theorem dictGet_insert_ne {α : Type} (cat : Catalog α) {k k' : String} (v : α)
    (h : k' ≠ k) : dictGet (dictInsert cat k v) k' = dictGet cat k' := by
  induction cat with
  | nil =>
      simp only [dictInsert, dictGet]
      rw [if_neg]
      intro hh
      exact h hh.symm
  | cons kv rest ih =>
      rw [dictInsert]
      split
      · next he =>
          rw [dictGet, if_neg (fun hh => h hh.symm), dictGet,
            if_neg (by rw [he]; exact fun hh => h hh.symm)]
      · rw [dictGet, dictGet]
        split
        · rfl
        · exact ih

theorem mem_keys_insert {α : Type} {cat : Catalog α} {k a : String} {v : α}
    (h : a ∈ (dictInsert cat k v).map Prod.fst) :
    a ∈ cat.map Prod.fst ∨ a = k := by
  induction cat with
  | nil => simp [dictInsert] at h; simp [h]
  | cons kv rest ih =>
      rw [dictInsert] at h
      split at h
      · next he =>
          rcases List.mem_cons.1 h with rfl | h'
          · exact Or.inr rfl
          · exact Or.inl (List.mem_cons_of_mem _ h')
      · rcases List.mem_cons.1 h with rfl | h'
        · exact Or.inl (List.mem_cons_self _ _)
        · rcases ih h' with hl | hr
          · exact Or.inl (List.mem_cons_of_mem _ hl)
          · exact Or.inr hr

theorem nodupKeys_insert {α : Type} {cat : Catalog α} (h : nodupKeys cat)
    (k : String) (v : α) : nodupKeys (dictInsert cat k v) := by
  induction cat with
  | nil => simp [dictInsert, nodupKeys]
  | cons kv rest ih =>
      unfold nodupKeys at h ⊢
      rw [dictInsert]
      split
      · next he =>
          simp only [List.map_cons, List.nodup_cons] at h ⊢
          rw [← he]
          exact h
      · next he =>
          simp only [List.map_cons, List.nodup_cons] at h ⊢
          refine ⟨?_, ih h.2⟩
          intro hmem
          rcases mem_keys_insert hmem with hl | hr
          · exact h.1 hl
          · exact he hr

theorem keysMatch_insert {α : Type} {idOf : α → String} {cat : Catalog α}
    (h : keysMatch idOf cat) {k : String} {v : α} (hv : idOf v = k) :
    keysMatch idOf (dictInsert cat k v) := by
  induction cat with
  | nil => intro kv hkv; simp [dictInsert] at hkv; simp [hkv, hv]
  | cons kv₀ rest ih =>
      intro kv hkv
      rw [dictInsert] at hkv
      split at hkv
      · rcases List.mem_cons.1 hkv with rfl | h'
        · exact hv
        · exact h kv (List.mem_cons_of_mem _ h')
      · rcases List.mem_cons.1 hkv with rfl | h'
        · exact h kv (List.mem_cons_self _ _)
        · exact ih (fun kv' hkv' => h kv' (List.mem_cons_of_mem _ hkv')) kv h'

theorem dictGet_none_of_not_key {α : Type} {cat : Catalog α} {k : String}
    (h : ∀ kv ∈ cat, kv.1 ≠ k) : dictGet cat k = none := by
  induction cat with
  | nil => rfl
  | cons kv rest ih =>
      rw [dictGet, if_neg (h kv (List.mem_cons_self _ _))]
      exact ih fun kv' hkv' => h kv' (List.mem_cons_of_mem _ hkv')

theorem key_ne_of_dictGet_none {α : Type} {cat : Catalog α} {k : String}
    (h : dictGet cat k = none) : ∀ kv ∈ cat, kv.1 ≠ k := by
  induction cat with
  | nil => simp
  | cons kv rest ih =>
      intro kv' hkv'
      rw [dictGet] at h
      split at h
      · simp at h
      · next hne =>
          rcases List.mem_cons.1 hkv' with rfl | h'
          · exact hne
          · exact ih h kv' h'

/-- With distinct keys and `id = key`, at most one stored record carries any
given hash. -/
theorem records_with_hash_le_one {α : Type} (idOf : α → String) {cat : Catalog α}
    (hnd : nodupKeys cat) (hkm : keysMatch idOf cat) (h : String) :
    (cat.filter (fun kv => decide (idOf kv.2 = h))).length ≤ 1 := by
  induction cat with
  | nil => simp
  | cons kv rest ih =>
      unfold nodupKeys at hnd
      simp only [List.map_cons, List.nodup_cons] at hnd
      rw [List.filter_cons]
      split
      · next hh =>
          simp only [decide_eq_true_eq] at hh
          have hk : kv.1 = h := by
            rw [← hkm kv (List.mem_cons_self _ _)]; exact hh
          have : rest.filter (fun kv => decide (idOf kv.2 = h)) = [] := by
            rw [List.filter_eq_nil_iff]
            intro kv' hkv'
            simp only [decide_eq_true_eq]
            rw [hkm kv' (List.mem_cons_of_mem _ hkv')]
            intro hcontra
            exact hnd.1 (by rw [← hcontra] at hk; rw [hk]; exact List.mem_map_of_mem _ hkv')
          simp [this]
      · exact Nat.le_trans
          (Nat.le_of_eq rfl)
          (ih hnd.2 fun kv' hkv' => hkm kv' (List.mem_cons_of_mem _ hkv'))

/-! ## Processor lemmas -/

theorem process_skip {hash : String → String} {fs : FS} {dbDir : FsPath}
    {cat : Catalog Post} {now : Timestamp} {f : SrcFile} {content : String}
    (hread : f.readResult = some content)
    (hdup : (dictGet cat (hash content)).isSome = true) :
    process_markdown_file hash fs dbDir cat now f = none := by
  rw [process_markdown_file, hread]
  simp [hdup]

theorem process_new {hash : String → String} {fs : FS} {dbDir : FsPath}
    {cat : Catalog Post} {now : Timestamp} {f : SrcFile} {content : String}
    (hread : f.readResult = some content)
    (hnew : dictGet cat (hash content) = none) :
    process_markdown_file hash fs dbDir cat now f
      = some (buildPost hash fs dbDir content f now) := by
  rw [process_markdown_file, hread]
  simp [hnew]

theorem process_read_error {hash : String → String} {fs : FS} {dbDir : FsPath}
    {cat : Catalog Post} {now : Timestamp} {f : SrcFile}
    (hread : f.readResult = none) :
    process_markdown_file hash fs dbDir cat now f = none := by
  rw [process_markdown_file, hread]

theorem process_some_inv {hash : String → String} {fs : FS} {dbDir : FsPath}
    {cat : Catalog Post} {now : Timestamp} {f : SrcFile} {p : Post}
    (h : process_markdown_file hash fs dbDir cat now f = some p) :
    ∃ content, f.readResult = some content ∧ dictGet cat (hash content) = none ∧
      p = buildPost hash fs dbDir content f now := by
  rw [process_markdown_file] at h
  cases hr : f.readResult with
  | none => rw [hr] at h; simp at h
  | some content =>
      rw [hr] at h
      by_cases hd : (dictGet cat (hash content)).isSome = true
      · simp [hd] at h
      · refine ⟨content, rfl, ?_, ?_⟩
        · cases hg : dictGet cat (hash content) with
          | none => rfl
          | some v => rw [hg] at hd; simp at hd
        · simp only [hd, if_neg, Bool.not_eq_true] at h
          exact (Option.some.inj h).symm

theorem buildPost_id (hash : String → String) (fs : FS) (dbDir : FsPath)
    (content : String) (f : SrcFile) (now : Timestamp) :
    (buildPost hash fs dbDir content f now).id = hash content := rfl

theorem runStep_nodup {hash : String → String} {fs : FS} {dbDir : FsPath}
    {now : Timestamp} {cat : Catalog Post} (h : nodupKeys cat) (f : SrcFile) :
    nodupKeys (runStep hash fs dbDir now cat f) := by
  rw [runStep]
  cases hp : process_markdown_file hash fs dbDir cat now f with
  | none => exact h
  | some p => exact nodupKeys_insert h _ _

theorem runFiles_nodup {hash : String → String} {fs : FS} {dbDir : FsPath}
    {now : Timestamp} {cat : Catalog Post} (h : nodupKeys cat)
    (files : List SrcFile) : nodupKeys (runFiles hash fs dbDir now cat files) := by
  induction files generalizing cat with
  | nil => exact h
  | cons f rest ih => exact ih (runStep_nodup h f)

theorem runStep_keysMatch {hash : String → String} {fs : FS} {dbDir : FsPath}
    {now : Timestamp} {cat : Catalog Post} (h : keysMatch Post.id cat)
    (f : SrcFile) : keysMatch Post.id (runStep hash fs dbDir now cat f) := by
  rw [runStep]
  cases hp : process_markdown_file hash fs dbDir cat now f with
  | none => exact h
  | some p => exact keysMatch_insert h rfl

theorem runFiles_keysMatch {hash : String → String} {fs : FS} {dbDir : FsPath}
    {now : Timestamp} {cat : Catalog Post} (h : keysMatch Post.id cat)
    (files : List SrcFile) : keysMatch Post.id (runFiles hash fs dbDir now cat files) := by
  induction files generalizing cat with
  | nil => exact h
  | cons f rest ih => exact ih (runStep_keysMatch h f)

theorem dictGet_runStep_mono {hash : String → String} {fs : FS} {dbDir : FsPath}
    {now : Timestamp} {cat : Catalog Post} {k : String} {v : Post}
    (h : dictGet cat k = some v) (f : SrcFile) :
    dictGet (runStep hash fs dbDir now cat f) k = some v := by
  rw [runStep]
  cases hp : process_markdown_file hash fs dbDir cat now f with
  | none => exact h
  | some p =>
      obtain ⟨content, -, hnone, hpb⟩ := process_some_inv hp
      have hne : k ≠ p.id := by
        intro hk
        rw [hpb, buildPost_id] at hk
        rw [hk] at h
        rw [h] at hnone
        simp at hnone
      rw [dictGet_insert_ne _ _ hne]
      exact h

theorem dictGet_runFiles_mono {hash : String → String} {fs : FS} {dbDir : FsPath}
    {now : Timestamp} {cat : Catalog Post} {k : String} {v : Post}
    (h : dictGet cat k = some v) (files : List SrcFile) :
    dictGet (runFiles hash fs dbDir now cat files) k = some v := by
  induction files generalizing cat with
  | nil => exact h
  | cons f rest ih => exact ih (dictGet_runStep_mono h f)

theorem isSome_runStep_mono {hash : String → String} {fs : FS} {dbDir : FsPath}
    {now : Timestamp} {cat : Catalog Post} {k : String}
    (h : (dictGet cat k).isSome = true) (f : SrcFile) :
    (dictGet (runStep hash fs dbDir now cat f) k).isSome = true := by
  cases hg : dictGet cat k with
  | none => rw [hg] at h; simp at h
  | some v => rw [dictGet_runStep_mono hg f]; rfl

theorem isSome_runFiles_mono {hash : String → String} {fs : FS} {dbDir : FsPath}
    {now : Timestamp} {cat : Catalog Post} {k : String}
    (h : (dictGet cat k).isSome = true) (files : List SrcFile) :
    (dictGet (runFiles hash fs dbDir now cat files) k).isSome = true := by
  cases hg : dictGet cat k with
  | none => rw [hg] at h; simp at h
  | some v => rw [dictGet_runFiles_mono hg files]; rfl

/-- After a run, the hash of every readable scanned file is a key. -/
theorem runFiles_hash_present {hash : String → String} {fs : FS} {dbDir : FsPath}
    {now : Timestamp} {files : List SrcFile} {f : SrcFile} {content : String}
    (hf : f ∈ files) (hread : f.readResult = some content) :
    ∀ cat : Catalog Post,
      (dictGet (runFiles hash fs dbDir now cat files) (hash content)).isSome = true := by
  induction files with
  | nil => simp at hf
  | cons g rest ih =>
      intro cat
      show (dictGet (runFiles hash fs dbDir now (runStep hash fs dbDir now cat g) rest)
          (hash content)).isSome = true
      rcases List.mem_cons.1 hf with rfl | hmem
      · apply isSome_runFiles_mono
        rw [runStep]
        cases hd : dictGet cat (hash content) with
        | some v =>
            rw [process_skip hread (by rw [hd]; rfl)]
            show (dictGet cat (hash content)).isSome = true
            rw [hd]
            rfl
        | none =>
            rw [process_new hread hd]
            show (dictGet (dictInsert cat (buildPost hash fs dbDir content f now).id
                (buildPost hash fs dbDir content f now)) (hash content)).isSome = true
            rw [buildPost_id, dictGet_insert_self]
            rfl
      · exact ih hmem (runStep hash fs dbDir now cat g)

/-- A run over files whose processing all returns `none` leaves the catalog
untouched. -/
theorem runFiles_fixed {hash : String → String} {fs : FS} {dbDir : FsPath}
    {now : Timestamp} {cat : Catalog Post} {files : List SrcFile}
    (h : ∀ f ∈ files, process_markdown_file hash fs dbDir cat now f = none) :
    runFiles hash fs dbDir now cat files = cat := by
  induction files with
  | nil => rfl
  | cons f rest ih =>
      show runFiles hash fs dbDir now (runStep hash fs dbDir now cat f) rest = cat
      rw [runStep, h f (List.mem_cons_self _ _)]
      exact ih fun g hg => h g (List.mem_cons_of_mem _ hg)

/-- C1: a document whose content hash is already a key of the catalog is
skipped (`process_markdown_file` emits no record), and — starting from any
well-formed catalog — after any number of runs the catalog keys stay pairwise
distinct and at most one stored record carries any given hash, so two source
files with identical byte content can never contribute two records. -/
theorem C1_content_hash_dedup (hash : String → String) (fs : FS) (dbDir : FsPath)
    (now : Timestamp) (cat : Catalog Post) (files files₂ : List SrcFile)
    (f : SrcFile) (content : String) (h : String)
    (hread : f.readResult = some content)
    (hdup : (dictGet cat (hash content)).isSome = true)
    (hnd : nodupKeys cat) (hkm : keysMatch Post.id cat) :
    process_markdown_file hash fs dbDir cat now f = none ∧
    nodupKeys (runFiles hash fs dbDir now cat files) ∧
    nodupKeys (runFiles hash fs dbDir now
      (runFiles hash fs dbDir now cat files) files₂) ∧
    ((runFiles hash fs dbDir now (runFiles hash fs dbDir now cat files) files₂).filter
        (fun kv => decide (kv.2.id = h))).length ≤ 1 := by
  refine ⟨process_skip hread hdup, runFiles_nodup hnd files, ?_, ?_⟩
  · exact runFiles_nodup (runFiles_nodup hnd files) files₂
  · exact records_with_hash_le_one Post.id
      (runFiles_nodup (runFiles_nodup hnd files) files₂)
      (runFiles_keysMatch (runFiles_keysMatch hkm files) files₂) h

theorem C1_content_hash_dedup_witness :
    process_markdown_file idHash fsNone ["db"] [("hi", p0)] ts0 f0 = none ∧
    nodupKeys (runFiles idHash fsNone ["db"] ts0 [("hi", p0)] [f0]) ∧
    nodupKeys (runFiles idHash fsNone ["db"] ts0
      (runFiles idHash fsNone ["db"] ts0 [("hi", p0)] [f0]) []) ∧
    ((runFiles idHash fsNone ["db"] ts0
        (runFiles idHash fsNone ["db"] ts0 [("hi", p0)] [f0]) []).filter
        (fun kv => decide (kv.2.id = "hi"))).length ≤ 1 :=
  C1_content_hash_dedup idHash fsNone ["db"] ts0 [("hi", p0)] [f0] [] f0 "hi" "hi"
    rfl (by decide) (by decide) (by decide)

/-- C9: a second run over the same source tree leaves the catalog (and hence
the aggregate's record count) unchanged; for any fixed catalog the aggregate,
per-record and paginated index outputs at two different times agree on
everything except `last_updated`; and no pipeline operation ever deletes a
record from the catalog. -/
theorem C9_rerun_idempotent (hash : String → String) (fs : FS) (dbDir : FsPath)
    (now₁ now₂ : Timestamp) (cat : Catalog Post) (files : List SrcFile) :
    runFiles hash fs dbDir now₂ (runFiles hash fs dbDir now₁ cat files) files
      = runFiles hash fs dbDir now₁ cat files ∧
    (∀ c : Catalog Post,
      (save_database c now₂).posts = (save_database c now₁).posts ∧
      (save_database c now₂).total_posts = (save_database c now₁).total_posts ∧
      (create_individual_json_files c now₂).map (fun e => (e.1, e.2.post))
        = (create_individual_json_files c now₁).map (fun e => (e.1, e.2.post)) ∧
      (create_paginated_index_files c now₂).map (fun e => (e.1, pageCore e.2))
        = (create_paginated_index_files c now₁).map (fun e => (e.1, pageCore e.2))) ∧
    (∀ k v, dictGet cat k = some v →
      dictGet (runFiles hash fs dbDir now₁ cat files) k = some v) := by
  refine ⟨?_, ?_, ?_⟩
  · apply runFiles_fixed
    intro f hf
    cases hr : f.readResult with
    | none => exact process_read_error hr
    | some content =>
        exact process_skip hr (runFiles_hash_present hf hr cat)
  · intro c
    refine ⟨rfl, rfl, ?_, ?_⟩
    · simp only [create_individual_json_files, List.map_map]
      rfl
    · simp only [create_paginated_index_files, List.map_map]
      rfl
  · exact fun k v h => dictGet_runFiles_mono h files

theorem C9_rerun_idempotent_witness :
    dictGet (runFiles idHash fsNone ["db"] ts0 [("hi", p0)] [f0]) "hi" = some p0 :=
  (C9_rerun_idempotent idHash fsNone ["db"] ts0 ts0 [("hi", p0)] [f0]).2.2
    "hi" p0 (by decide)

/-! ## Pagination lemmas -/

theorem length_insertDesc {α : Type} (key : α → Nat) (x : α) (l : List α) :
    (insertDesc key x l).length = l.length + 1 := by
  induction l with
  | nil => rfl
  | cons y ys ih =>
      rw [insertDesc]
      split
      · rfl
      · rw [List.length_cons, ih, List.length_cons]

theorem length_sortDesc {α : Type} (key : α → Nat) (l : List α) :
    (sortDesc key l).length = l.length := by
  induction l with
  | nil => rfl
  | cons x xs ih => rw [sortDesc, length_insertDesc, ih, List.length_cons]

theorem length_pages (cat : Catalog Post) (now : Timestamp) :
    (create_paginated_index_files cat now).length = (cat.length + 9) / 10 := by
  simp only [create_paginated_index_files, List.length_map, List.length_range,
    length_sortDesc]
  omega

/-- C5: for a catalog of n records, the paginated index has ⌈n/10⌉ pages;
page i+1 holds 10 records except a last page of n mod 10 when n mod 10 ≠ 0,
and carries 1-based `page`, `total_pages`, `total_posts`, `posts_per_page` =
10, `has_next` iff a later page exists, `has_prev` iff page > 1, and
`next_page`/`prev_page` accordingly; in particular 25 records yield 3 pages of
sizes 10/10/5 with the stated flags. -/
theorem C5_pagination (cat : Catalog Post) (now : Timestamp) :
    (create_paginated_index_files cat now).length = (cat.length + 9) / 10 ∧
    (∀ i, ∀ h : i < (create_paginated_index_files cat now).length,
      (((create_paginated_index_files cat now).get ⟨i, h⟩).2.posts.length
        = if i + 1 = (cat.length + 9) / 10 ∧ cat.length % 10 ≠ 0
          then cat.length % 10 else 10) ∧
      ((create_paginated_index_files cat now).get ⟨i, h⟩).2.page = i + 1 ∧
      ((create_paginated_index_files cat now).get ⟨i, h⟩).2.total_pages
        = (cat.length + 9) / 10 ∧
      ((create_paginated_index_files cat now).get ⟨i, h⟩).2.total_posts = cat.length ∧
      ((create_paginated_index_files cat now).get ⟨i, h⟩).2.posts_per_page = 10 ∧
      (((create_paginated_index_files cat now).get ⟨i, h⟩).2.has_next = true
        ↔ i + 1 < (cat.length + 9) / 10) ∧
      (((create_paginated_index_files cat now).get ⟨i, h⟩).2.has_prev = true
        ↔ 0 < i) ∧
      ((create_paginated_index_files cat now).get ⟨i, h⟩).2.next_page
        = (if i + 1 < (cat.length + 9) / 10 then some (i + 2) else none) ∧
      ((create_paginated_index_files cat now).get ⟨i, h⟩).2.prev_page
        = (if 0 < i then some i else none)) ∧
    (create_paginated_index_files cat25 ts0).map
        (fun e => (e.2.posts.length, e.2.total_pages, e.2.has_next,
                   e.2.has_prev, e.2.next_page))
      = [(10, 3, true, false, some 2), (10, 3, true, true, some 3),
         (5, 3, false, true, none)] := by
  refine ⟨length_pages cat now, ?_, by decide⟩
  intro i h
  have hi : i < (cat.length + 9) / 10 := by rw [← length_pages cat now]; exact h
  simp only [create_paginated_index_files, List.get_eq_getElem, List.getElem_map,
    List.getElem_range, List.length_map, length_sortDesc, List.length_take,
    List.length_drop, decide_eq_true_eq]
  refine ⟨?_, trivial, by omega, trivial, trivial, by omega, trivial, ?_, trivial⟩
  · by_cases hif : i + 1 = (cat.length + 9) / 10 ∧ cat.length % 10 ≠ 0
    · rw [if_pos hif]; omega
    · rw [if_neg hif]; omega
  · rw [show (List.length cat + 10 - 1) / 10 = (List.length cat + 9) / 10 from by omega]

/-! ## Link-pass lemmas (for the pass-precedence claim) -/

theorem schemeSplit_https (X : List Char) :
    schemeSplit ("https://".data ++ X) = some ("https://".data, X) := rfl

theorem schemeSplit_http (X : List Char) :
    schemeSplit ("http://".data ++ X) = some ("http://".data, X) := rfl

theorem splitAtChar_append {stop : Char} {a : List Char} (b : List Char)
    (ha : stop ∉ a) : splitAtChar stop (a ++ stop :: b) = some (a, b) := by
  induction a with
  | nil => simp [splitAtChar]
  | cons c a' ih =>
      rw [List.cons_append, splitAtChar,
        if_neg (fun hc => ha (by rw [hc]; exact List.mem_cons_self _ _)),
        ih (fun hmem => ha (List.mem_cons_of_mem _ hmem))]
      rfl

theorem matchBareUrl_eq {sch : List Char} (t rest0 : List Char)
    (hsch : sch = "http://".data ∨ sch = "https://".data)
    (ht : t ≠ []) (htb : ']' ∉ t) :
    matchBareUrl (sch ++ (t ++ ']' :: rest0)) = some (sch ++ t, rest0) := by
  have hs : schemeSplit (sch ++ (t ++ ']' :: rest0)) = some (sch, t ++ ']' :: rest0) := by
    rcases hsch with rfl | rfl
    · exact schemeSplit_http _
    · exact schemeSplit_https _
  rw [matchBareUrl, hs, Option.some_bind, splitAtChar_append rest0 htb,
    Option.some_bind, if_neg ht]

theorem pass1F_no_bracket {l : List Char} (h : '[' ∉ l) (n : Nat) :
    pass1F n l = l := by
  induction n generalizing l with
  | zero => rfl
  | succ n ih =>
      cases l with
      | nil => rfl
      | cons c rest =>
          rw [pass1F, if_neg (fun hc => h (by rw [hc]; exact List.mem_cons_self _ _)),
            ih (fun hr => h (List.mem_cons_of_mem _ hr))]

theorem C5_pagination_witness :
    2 < (create_paginated_index_files cat25 ts0).length ∧
    ((create_paginated_index_files cat25 ts0).get ⟨2, by decide⟩).2.has_next = false :=
  ⟨by decide,
   by
    have hfields := (C5_pagination cat25 ts0).2.1 2 (by decide)
    have hnext := hfields.2.2.2.2.2.1
    cases hhn : ((create_paginated_index_files cat25 ts0).get ⟨2, by decide⟩).2.has_next with
    | false => rfl
    | true =>
        rw [hhn] at hnext
        have h3 : (2 : Nat) + 1 < (cat25.length + 9) / 10 := hnext.1 rfl
        rw [show cat25.length = 25 from by decide] at h3
        omega⟩

/-- C2: the claim says the plain-URL pass never re-matches a URL that passes
1-2 already placed inside an anchor.  It does: the lookbehind class
`[\[<"\w]` omits `>`, so the anchor's visible text (right after `>`) is
matched again and wrapped in a second, nested anchor.  Evaluating the whole
`process_links` chain on the body `[https://example.com]` exhibits the double
wrapping. -/
theorem C2_pass3_rewraps_anchor_text :
    process_links "[https://example.com]" =
      "<a href=\"https://example.com\" target=\"_blank\" rel=\"noopener noreferrer\"><a href=\"https://example.com\" target=\"_blank\" rel=\"noopener noreferrer\">https://example.com</a></a>" := by
  decide

/-- C3: the claim says an existing image referenced as `./img.png` is both
copied and has its embed path rewritten.  The copy happens, but the rewrite
does not: the source strips `./` before building the search string for
`str.replace`, so `![a](img.png)` is searched while the body contains
`![a](./img.png)`.  The same embed written without `./` is rewritten. -/
theorem C3_dotslash_image_not_rewritten :
    (process_images fsYes ["db"] "Hello ![a](./img.png) world".data ["dir", "doc.md"]).1
      = "Hello ![a](./img.png) world".data ∧
    (process_images fsYes ["db"] "Hello ![a](./img.png) world".data ["dir", "doc.md"]).2
      = [(["dir", "img.png"], ["db", "assets", "images", "posts", "doc_img.png"])] ∧
    (process_images fsYes ["db"] "Hello ![a](img.png) world".data ["dir", "doc.md"]).1
      = "Hello ![a](db/assets/images/posts/doc_img.png) world".data :=
  ⟨by decide, by decide, by decide⟩

/-- C6 counterexample: for the filename `a.md.md`, the produced title is `a`
(every occurrence of `.md` removed), while the filename with its extension
stripped is `a.md`. -/
theorem C6_title_counterexample :
    (process_markdown_file idHash fsNone ["db"] [] ts0 fAmd).map Post.title = some "a" ∧
    title_extension_stripped "a.md.md" = "a.md" ∧
    (process_markdown_file idHash fsNone ["db"] [] ts0 fAmd).map Post.title
      ≠ some (title_extension_stripped "a.md.md") :=
  ⟨by decide, by decide, by decide⟩

/-- C6 (amended): for every successfully processed document, `id` is the hash
of the raw content, `title` is the filename with every occurrence of `.md`
removed, `excerpt` equals `content` (untruncated), `content` is the fully
transformed body, and the remaining fields are as assembled at lines 190-199. -/
theorem C6_record_fields (hash : String → String) (fs : FS) (dbDir : FsPath)
    (cat : Catalog Post) (now : Timestamp) (f : SrcFile) (content : String) (p : Post)
    (hread : f.readResult = some content)
    (hp : process_markdown_file hash fs dbDir cat now f = some p) :
    p.id = hash content ∧
    p.title = extract_title_from_filename (fileName f.path) ∧
    p.excerpt = p.content ∧
    p.content = String.mk (process_links_chars
      (process_images fs dbDir content.data f.path).1) ∧
    p.filename = fileName f.path ∧
    p.slug = create_slug_from_title p.title now ∧
    p.created_at = now ∧ p.updated_at = now := by
  obtain ⟨content', hread', hnone, hpb⟩ := process_some_inv hp
  rw [hread] at hread'
  obtain rfl : content = content' := Option.some.inj hread'
  subst hpb
  exact ⟨rfl, rfl, rfl, rfl, rfl, rfl, rfl, rfl⟩

theorem C6_record_fields_witness :
    p0.id = idHash "hi" ∧
    p0.title = extract_title_from_filename (fileName f0.path) ∧
    p0.excerpt = p0.content ∧
    p0.content = String.mk (process_links_chars
      (process_images fsNone ["db"] "hi".data f0.path).1) ∧
    p0.filename = fileName f0.path ∧
    p0.slug = create_slug_from_title p0.title ts0 ∧
    p0.created_at = ts0 ∧ p0.updated_at = ts0 :=
  C6_record_fields idHash fsNone ["db"] [] ts0 f0 "hi" p0 rfl rfl

/-- C7 counterexample: an aggregate whose posts list is `[{id: "a"}, {}]`
raises during record extraction; the failure is logged but the run proceeds
with the record extracted before the failure — not with an empty mapping. -/
theorem C7_partial_load_counterexample :
    (load_existing_database (some (DbParse.parsed [⟨some "a"⟩, ⟨none⟩]))).2 = true ∧
    (load_existing_database (some (DbParse.parsed [⟨some "a"⟩, ⟨none⟩]))).1 ≠ [] :=
  ⟨by decide, by decide⟩

theorem loadPosts_characterization (ps : List JPost) (acc : Catalog JPost) :
    loadPosts ps acc
      = ((ps.takeWhile (fun p => p.idField.isSome)).foldl
           (fun a p => dictInsert a (p.idField.getD "") p) acc,
         ps.any (fun p => p.idField.isNone)) := by
  induction ps generalizing acc with
  | nil => rfl
  | cons p rest ih =>
      cases hid : p.idField with
      | none => simp [loadPosts, hid]
      | some k => simp [loadPosts, hid, ih]

/-- C7 (amended): catalog loading is total and never aborts the run; an
absent file yields an empty mapping without error; a parse failure yields an
empty mapping with the error logged; an extraction failure part-way through
the posts list is logged and yields the records extracted before the first
failure (empty only when the first record is already bad). -/
theorem C7_load_total :
    load_existing_database none = ([], false) ∧
    load_existing_database (some DbParse.unreadable) = ([], true) ∧
    (∀ ps : List JPost,
      load_existing_database (some (DbParse.parsed ps))
        = ((ps.takeWhile (fun p => p.idField.isSome)).foldl
             (fun a p => dictInsert a (p.idField.getD "") p) [],
           ps.any (fun p => p.idField.isNone))) :=
  ⟨rfl, rfl, fun ps => loadPosts_characterization ps []⟩

theorem C7_load_total_witness :
    load_existing_database (some (DbParse.parsed [⟨some "a"⟩, ⟨none⟩]))
      = ([("a", ⟨some "a"⟩)], true) := by
  rw [C7_load_total.2.2 [⟨some "a"⟩, ⟨none⟩]]
  decide

/-- C8 counterexample: a document whose image copy fails (`copyOk` always
false while the image exists) still yields a record — `process_markdown_file`
does not return `none` on a copy error, because `process_images` catches it
in its inner handler and only skips that image's rewrite. -/
theorem C8_copy_error_counterexample :
    (process_markdown_file idHash fsNoCopy ["db"] [] ts0 fImg).isSome = true ∧
    (process_markdown_file idHash fsNoCopy ["db"] [] ts0 fImg).map Post.content
      = some "x ![a](i.png) y" ∧
    (process_images fsNoCopy ["db"] "x ![a](i.png) y".data fImg.path).2 = [] :=
  ⟨by decide, by decide, by decide⟩

/-- C8 (amended): an exception reaching `process_markdown_file`'s handler
(e.g. a read error) yields no record and the run continues over the remaining
documents with the catalog unchanged by the failed document; but an image-copy
error is contained inside `process_images` and the document still produces a
record. -/
theorem C8_failure_isolation (hash : String → String) (fs : FS) (dbDir : FsPath)
    (now : Timestamp) (cat : Catalog Post) (f : SrcFile) (rest : List SrcFile)
    (content : String) :
    (f.readResult = none → process_markdown_file hash fs dbDir cat now f = none) ∧
    (process_markdown_file hash fs dbDir cat now f = none →
      runFiles hash fs dbDir now cat (f :: rest) = runFiles hash fs dbDir now cat rest) ∧
    (f.readResult = some content → dictGet cat (hash content) = none →
      process_markdown_file hash fs dbDir cat now f
        = some (buildPost hash fs dbDir content f now)) := by
  refine ⟨process_read_error, ?_, fun hr hn => process_new hr hn⟩
  intro hnone
  show runFiles hash fs dbDir now (runStep hash fs dbDir now cat f) rest
      = runFiles hash fs dbDir now cat rest
  rw [runStep, hnone]

theorem C8_failure_isolation_witness :
    process_markdown_file idHash fsNoCopy ["db"] [] ts0 fImg
      = some (buildPost idHash fsNoCopy ["db"] "x ![a](i.png) y" fImg ts0) :=
  (C8_failure_isolation idHash fsNoCopy ["db"] ts0 [] fImg [] "x ![a](i.png) y").2.2
    rfl rfl

/-- C10 counterexample: for the link `[https://](https://b.example)` — whose
text begins with `https://` — pass 1 does NOT consume `[text]` (the group
`[^\]]+` needs a character after the scheme), pass 2 matches instead, and the
output IS a single anchor with href equal to the url and visible text equal
to the text. -/
theorem C10_scheme_only_counterexample :
    process_links "[https://](https://b.example)"
      = "<a href=\"https://b.example\" target=\"_blank\" rel=\"noopener noreferrer\">https://</a>" := by
  decide

/-- C10 (amended): for a well-formed markdown link `[text](url)` (no `]` in
the text, no `[` in the url) whose text is `http://` or `https://` followed
by at least one character, pass 1 consumes `[text]` first, rewriting it to an
anchor whose href and visible text equal the link text with the literal
`(url)` left outside the anchor; on the example link
`[https://a.example](https://b.example)` the full `process_links` chain then
contains an anchor with href `https://a.example` and never a single anchor
combining href `https://b.example` with text `https://a.example` (pass 3
further wraps the visible text and the trailing `(url)` remnant). -/
theorem C10_pass1_precedence (sch t url : List Char)
    (hsch : sch = "http://".data ∨ sch = "https://".data)
    (ht : t ≠ []) (htb : ']' ∉ t) (hub : '[' ∉ url) :
    pass1 ('[' :: (sch ++ t) ++ ']' :: '(' :: url ++ [')'])
      = anchorChars (sch ++ t) (sch ++ t) ++ '(' :: url ++ [')'] ∧
    process_links "[https://a.example](https://b.example)"
      = "<a href=\"https://a.example\" target=\"_blank\" rel=\"noopener noreferrer\"><a href=\"https://a.example\" target=\"_blank\" rel=\"noopener noreferrer\">https://a.example</a></a>(<a href=\"https://b.example)\" target=\"_blank\" rel=\"noopener noreferrer\">https://b.example)</a>" := by
  refine ⟨?_, by decide⟩
  have hX : '[' ∉ ('(' :: url ++ [')']) := by
    intro hmem
    rcases List.mem_append.1 hmem with h | h
    · rcases List.mem_cons.1 h with h' | h'
      · exact absurd h' (by decide)
      · exact hub h'
    · exact absurd (List.mem_singleton.1 h) (by decide)
  unfold pass1
  rw [List.cons_append, List.cons_append, List.length_cons, pass1F,
    if_pos (rfl : ('[' : Char) = '[')]
  have hR : (sch ++ t ++ (']' :: '(' :: url)) ++ [')']
      = sch ++ (t ++ ']' :: ('(' :: url ++ [')'])) := by simp
  rw [hR, matchBareUrl_eq _ _ hsch ht htb, List.append_assoc]
  change anchorChars (sch ++ t) (sch ++ t)
      ++ pass1F (sch ++ (t ++ ']' :: ('(' :: url ++ [')']))).length
           ('(' :: url ++ [')'])
      = anchorChars (sch ++ t) (sch ++ t) ++ ('(' :: url ++ [')'])
  rw [pass1F_no_bracket hX]

theorem C10_pass1_precedence_witness :
    pass1 ('[' :: ("https://".data ++ "a".data) ++ ']' :: '(' :: "b".data ++ [')'])
      = anchorChars ("https://".data ++ "a".data) ("https://".data ++ "a".data)
        ++ '(' :: "b".data ++ [')'] :=
  (C10_pass1_precedence "https://".data "a".data "b".data (Or.inr rfl)
    (by decide) (by decide) (by decide)).1

end ProcessMarkdown
